import Mathlib

set_option linter.unnecessarySeqFocus false

/-!
Shallow embedding of the waffle-plotting pipeline (src/waffle.py).

The three core functions `get_top_users`, `parse_waffle_rows` and
`get_limiting_waffles` are translated from the source.  Python dicts are
modelled as association lists in insertion order (`Dict`): updating an
existing key keeps its position, a fresh key is appended at the end, which
is exactly the iteration-order contract of Python dicts.  CSV rows are
modelled as already-parsed records (the source applies `int(...)` and
`datetime.strptime(...)` to string cells inside the loops; parsing itself
is an external collaborator).  Python's `sorted(users, key=users.get,
reverse=True)` is a stable descending sort, modelled with the stable
`List.insertionSort` under the relation `count b <= count a`.
-/

/-- A parsed timestamp in the source's fixed TIME_FORMAT
"%Y-%m-%d %H:%M:%S".  The pipeline only ever reads the `day` field
(`consumption_time.day`, the day of month). -/
structure Timestamp where
  year : Nat
  month : Nat
  day : Nat
  hour : Nat
  minute : Nat
  second : Nat
deriving DecidableEq, Repr

/-- A parsed CSV row: columns COL_UID, COL_WAFFLES (`int(...)`),
COL_TIME (parsed timestamp) and COL_USERNAME. -/
structure Row where
  uid : String
  waffles : Int
  time : Timestamp
  username : String
deriving DecidableEq, Repr

/-- Python dict with string keys, as an association list in insertion
order. -/
abbrev Dict (α : Type) := List (String × α)

/-- Python `m[key]` as an `Option`: first binding of `key`, if any. -/
def alistLookup {α : Type} : Dict α → String → Option α
  | [], _ => none
  | (k, v) :: rest, key => if k = key then some v else alistLookup rest key

/-- Python `key in m`. -/
def alistHasKey {α : Type} (m : Dict α) (key : String) : Bool :=
  (alistLookup m key).isSome

/-- The keys of a dict, in insertion order (Python `list(m)`). -/
def alistKeys {α : Type} (m : Dict α) : List String :=
  m.map Prod.fst

/-- `users[key] += v` on a `defaultdict(int)`: add to the existing
binding, or append a fresh binding (missing keys default to 0). -/
def addCount : Dict Int → String → Int → Dict Int
  | [], key, v => [(key, v)]
  | (k, c) :: rest, key, v =>
    if k = key then (k, c + v) :: rest else (k, c) :: addCount rest key v

/-- Python `m[key] = v` on a plain dict: overwrite in place, or append a
fresh binding at the end. -/
def dictSet {α : Type} : Dict α → String → α → Dict α
  | [], key, v => [(key, v)]
  | (k, c) :: rest, key, v =>
    if k = key then (k, v) :: rest else (k, c) :: dictSet rest key v

/-- Python `m.update(kvs)`: set each pair in order. -/
def dictUpdate {α : Type} (m : Dict α) (kvs : List (String × α)) : Dict α :=
  kvs.foldl (fun acc kv => dictSet acc kv.1 kv.2) m

/-- `user_counts[key] += v` on a plain dict whose key is known to be
present (the source filters rows to cohort members first, so the lookup
cannot fail there): add `v` to the binding of `key`, touching nothing
else. -/
def bumpCount : Dict Int → String → Int → Dict Int
  | [], _, _ => []
  | (k, c) :: rest, key, v =>
    if k = key then (k, c + v) :: rest else (k, c) :: bumpCount rest key v

/-- `history_lookup[key].append(v)` on a `defaultdict(list)`: append to
the existing binding, or append a fresh singleton binding. -/
def appendHist : Dict (List Int) → String → Int → Dict (List Int)
  | [], key, v => [(key, [v])]
  | (k, l) :: rest, key, v =>
    if k = key then (k, l ++ [v]) :: rest else (k, l) :: appendHist rest key v

/-- Python `users.get(key)`; every key passed to it in the source is
present, so the default 0 is never observed. -/
def countOf (users : Dict Int) (key : String) : Int :=
  (alistLookup users key).getD 0

/-- `sorted(users, key=users.get, reverse=True)`: the keys of `users`,
stably sorted by running total, largest first; ties keep insertion
order. -/
def sortedKeysByCount (users : Dict Int) : List String :=
  List.insertionSort (fun a b => countOf users b ≤ countOf users a) (alistKeys users)

/-- `sorted(users, key=users.get, reverse=True)[:MAX_RANK]`. -/
def snapshotKeys (maxRank : Nat) (users : Dict Int) : List String :=
  (sortedKeysByCount users).take maxRank

/-- The dict comprehension `{key: users[key] for key in sorted(...)[:MAX_RANK]}`. -/
def snapshotPairs (maxRank : Nat) (users : Dict Int) : List (String × Int) :=
  (snapshotKeys maxRank users).map (fun key => (key, countOf users key))

/-- Loop state of `get_top_users`: the running totals `users`, the day of
month of the previous row (`prev_day`, `none` before the first row) and
the accumulated `top_users` dict. -/
structure TopState where
  users : Dict Int
  prevDay : Option Nat
  topUsers : Dict Int

/-- One iteration of the `for row in rows` loop of `get_top_users`. -/
def topStep (maxRank : Nat) (st : TopState) (row : Row) : TopState :=
  let users := addCount st.users row.username row.waffles
  let d := row.time.day
  let topUsers :=
    if some d ≠ st.prevDay then dictUpdate st.topUsers (snapshotPairs maxRank users)
    else st.topUsers
  ⟨users, some d, topUsers⟩

/-- `get_top_users(rows)` with `MAX_RANK = maxRank`. -/
def get_top_users (maxRank : Nat) (rows : List Row) : Dict Int :=
  (rows.foldl (topStep maxRank) ⟨[], none, []⟩).topUsers

/-- Loop state of `parse_waffle_rows`: `user_counts`,
`consumption_times`, `history_lookup` and `prev_day`. -/
structure ParseState where
  userCounts : Dict Int
  times : List Timestamp
  histories : Dict (List Int)
  prevDay : Option Nat

/-- The inner `for user, count in user_counts.items()` loop: append every
cohort member's current running total to its history. -/
def appendAll (counts : Dict Int) (hist : Dict (List Int)) : Dict (List Int) :=
  counts.foldl (fun h kv => appendHist h kv.1 kv.2) hist

/-- One iteration of the filtered row loop of `parse_waffle_rows`. -/
def parseStep (st : ParseState) (row : Row) : ParseState :=
  let counts := bumpCount st.userCounts row.username row.waffles
  let d := row.time.day
  if some d ≠ st.prevDay then
    ⟨counts, st.times ++ [row.time], appendAll counts st.histories, some d⟩
  else
    ⟨counts, st.times, st.histories, some d⟩

/-- `parse_waffle_rows(rows)`: the day-boundary timestamp list and the
history dict, restricted to cohort members. -/
def parse_waffle_rows (maxRank : Nat) (rows : List Row) : List Timestamp × Dict (List Int) :=
  let topUsers := get_top_users maxRank rows
  let finalState :=
    (rows.filter (fun row => alistHasKey topUsers row.username)).foldl parseStep
      ⟨topUsers.map (fun kv => (kv.1, 0)), [], [], none⟩
  (finalState.times, finalState.histories)

/-- The backward `for wafflecount in reversed(history)` loop of
`get_limiting_waffles`: decrement `lastIndex`, stop (returning the
decremented index) at the first element that differs from the one
processed just before it. -/
def lastScan : List Int → Nat → Int → Nat
  | [], lastIndex, _ => lastIndex
  | w :: rest, lastIndex, next =>
    if w ≠ next then lastIndex - 1 else lastScan rest (lastIndex - 1) w

/-- The forward `for wafflecount in history` loop of
`get_limiting_waffles`: count elements equal to `prev` (which the source
never updates, it stays `history[0]`), stop at the first that differs. -/
def firstScan : List Int → Nat → Int → Nat
  | [], firstIndex, _ => firstIndex
  | w :: rest, firstIndex, prev =>
    if w ≠ prev then firstIndex else firstScan rest (firstIndex + 1) prev

/-- The body of `get_limiting_waffles` for one history: the
`(first_waffle, last_waffle)` pair.  The source indexes `history[-1]` and
`history[0]`, so an empty history is outside its domain (it would raise
`IndexError`); histories produced by `parse_waffle_rows` are never
empty. -/
def spanOf (history : List Int) : Nat × Nat :=
  match history with
  | [] => (0, 0)
  | h :: t =>
    let lastIndex := lastScan (h :: t).reverse (h :: t).length ((h :: t).getLastD h)
    let lastW := min (lastIndex + 1) (h :: t).length
    let firstIndex := firstScan (h :: t) 0 h
    let firstW := max (firstIndex - 1) 0
    (firstW, lastW)

/-- `get_limiting_waffles(history_lookup)`: the `(first_waffle,
last_waffle)` dicts. -/
def get_limiting_waffles (hl : Dict (List Int)) : Dict Nat × Dict Nat :=
  hl.foldl
    (fun acc kv => (dictSet acc.1 kv.1 (spanOf kv.2).1, dictSet acc.2 kv.1 (spanOf kv.2).2))
    ([], [])

/-- The sequence of `{key: users[key] for key in sorted(...)[:MAX_RANK]}`
dicts that `get_top_users` merges into `top_users`, one per day-boundary
snapshot, starting from running totals `users` and previous day `pd`. -/
def snapTrace (maxRank : Nat) (users : Dict Int) (pd : Option Nat) :
    List Row → List (List (String × Int))
  | [] => []
  | row :: rest =>
    let users2 := addCount users row.username row.waffles
    let d := row.time.day
    if some d ≠ pd then snapshotPairs maxRank users2 :: snapTrace maxRank users2 (some d) rest
    else snapTrace maxRank users2 (some d) rest

/-- All day-boundary snapshots taken during `get_top_users maxRank rows`. -/
def topSnapshots (maxRank : Nat) (rows : List Row) : List (List (String × Int)) :=
  snapTrace maxRank [] none rows

/-- The timestamps appended to `consumption_times` by the
`parse_waffle_rows` loop, starting from previous day `pd`. -/
def timeTrace (pd : Option Nat) : List Row → List Timestamp
  | [] => []
  | row :: rest =>
    if some row.time.day ≠ pd then row.time :: timeTrace (some row.time.day) rest
    else timeTrace (some row.time.day) rest

/-- The values appended to user `u`'s history by the `parse_waffle_rows`
loop: `u`'s running total at each day boundary. -/
def countTrace (u : String) (counts : Dict Int) (pd : Option Nat) : List Row → List Int
  | [] => []
  | row :: rest =>
    let counts2 := bumpCount counts row.username row.waffles
    if some row.time.day ≠ pd then
      countOf counts2 u :: countTrace u counts2 (some row.time.day) rest
    else countTrace u counts2 (some row.time.day) rest

/-- First bound of `Option.getD`-free alternative chaining: `optOr a b`
is `a` when `a` is `some`, else `b`. -/
def optOr {α : Type} : Option α → Option α → Option α
  | some v, _ => some v
  | none, b => b

/-- A concrete timestamp (day of month 1) for the test scenarios. -/
def ts1 : Timestamp := ⟨2021, 3, 1, 12, 0, 0⟩

/-- A concrete timestamp (day of month 2) for the test scenarios. -/
def ts2 : Timestamp := ⟨2021, 3, 2, 12, 0, 0⟩

/-- Scenario 1, first event: actor A eats 5 waffles. -/
def c2row1 (t : Timestamp) : Row := ⟨"1", 5, t, "A"⟩

/-- Scenario 1, second event: actor A eats 3 more waffles. -/
def c2row2 (t : Timestamp) : Row := ⟨"2", 3, t, "A"⟩

/-- Two events by two different actors on two different days: A eats 5 on
day 1, B eats 10 on day 2. -/
def c4rows : List Row := [⟨"1", 5, ts1, "A"⟩, ⟨"2", 10, ts2, "B"⟩]

/-- An event late on January 31. -/
def c8row1 : Row := ⟨"1", 2, ⟨2021, 1, 31, 23, 0, 0⟩, "A"⟩

/-- An event early on February 1, the next calendar day. -/
def c8row2 : Row := ⟨"2", 3, ⟨2021, 2, 1, 1, 0, 0⟩, "A"⟩

/-- A cohort-selector state to run the wraparound scenario from. -/
def c8top : TopState := ⟨[], none, []⟩

/-- A series-builder state to run the wraparound scenario from. -/
def c8parse : ParseState := ⟨[], [], [], none⟩

/-! ### Dictionary lemmas -/

theorem alistLookup_isSome {α : Type} (m : Dict α) (a : String) :
    (alistLookup m a).isSome = true ↔ a ∈ alistKeys m := by
  induction m with
  | nil => simp [alistLookup, alistKeys]
  | cons kv rest ih =>
    obtain ⟨k, v⟩ := kv
    by_cases h : k = a <;> simp [alistLookup, alistKeys, h, ih] <;> tauto

theorem alistLookup_eq_none {α : Type} (m : Dict α) (a : String) :
    alistLookup m a = none ↔ a ∉ alistKeys m := by
  rw [← alistLookup_isSome]
  cases alistLookup m a <;> simp

theorem lookup_dictSet {α : Type} (m : Dict α) (k a : String) (v : α) :
    alistLookup (dictSet m k v) a = if k = a then some v else alistLookup m a := by
  induction m with
  | nil => simp [dictSet, alistLookup]
  | cons kv rest ih =>
    obtain ⟨k0, c⟩ := kv
    by_cases h1 : k0 = k
    · subst h1
      by_cases h2 : k0 = a <;> simp [dictSet, alistLookup, h2]
    · by_cases h2 : k0 = a
      · subst h2
        have hka : ¬ k = k0 := fun hc => h1 hc.symm
        simp [dictSet, alistLookup, h1, hka]
      · simp [dictSet, alistLookup, h1, h2, ih]

theorem mem_keys_dictSet {α : Type} (m : Dict α) (k a : String) (v : α) :
    a ∈ alistKeys (dictSet m k v) ↔ a ∈ alistKeys m ∨ a = k := by
  rw [← alistLookup_isSome, lookup_dictSet]
  by_cases h : k = a
  · subst h; simp
  · have hak : ¬ a = k := fun hc => h hc.symm
    simp [h, hak, alistLookup_isSome]

theorem nodup_keys_dictSet {α : Type} (m : Dict α) (k : String) (v : α)
    (hm : (alistKeys m).Nodup) : (alistKeys (dictSet m k v)).Nodup := by
  induction m with
  | nil => simp [dictSet, alistKeys]
  | cons kv rest ih =>
    obtain ⟨k0, c⟩ := kv
    simp only [alistKeys, List.map_cons, List.nodup_cons] at hm
    by_cases h1 : k0 = k
    · subst h1
      simpa [dictSet, alistKeys, List.nodup_cons] using hm
    · have hrest := ih hm.2
      simp only [dictSet, if_neg h1, alistKeys, List.map_cons, List.nodup_cons]
      refine ⟨fun hc => ?_, hrest⟩
      rcases (mem_keys_dictSet rest k k0 v).mp hc with h | h
      · exact hm.1 h
      · exact h1 h

theorem length_dictSet_le {α : Type} (m : Dict α) (k : String) (v : α) :
    (dictSet m k v).length ≤ m.length + 1 := by
  induction m with
  | nil => simp [dictSet]
  | cons kv rest ih =>
    obtain ⟨k0, c⟩ := kv
    by_cases h1 : k0 = k <;> simp [dictSet, h1] <;> omega

theorem lookup_dictUpdate_isSome {α : Type} (s : List (String × α)) (m : Dict α) (a : String) :
    (alistLookup (dictUpdate m s) a).isSome = true ↔
      (alistLookup m a).isSome = true ∨ a ∈ s.map Prod.fst := by
  induction s generalizing m with
  | nil => simp [dictUpdate]
  | cons kv rest ih =>
    obtain ⟨k, v⟩ := kv
    have hstep : dictUpdate m ((k, v) :: rest) = dictUpdate (dictSet m k v) rest := rfl
    rw [hstep, ih]
    by_cases h : a = k
    · subst h
      simp [alistLookup_isSome, mem_keys_dictSet]
    · have hka : ¬ k = a := fun hc => h hc.symm
      simp [alistLookup_isSome, mem_keys_dictSet, h, hka]

theorem nodup_keys_dictUpdate {α : Type} (s : List (String × α)) (m : Dict α)
    (hm : (alistKeys m).Nodup) : (alistKeys (dictUpdate m s)).Nodup := by
  induction s generalizing m with
  | nil => exact hm
  | cons kv rest ih =>
    exact ih (dictSet m kv.1 kv.2) (nodup_keys_dictSet m kv.1 kv.2 hm)

theorem length_dictUpdate_le {α : Type} (s : List (String × α)) (m : Dict α) :
    (dictUpdate m s).length ≤ m.length + s.length := by
  induction s generalizing m with
  | nil => simp [dictUpdate]
  | cons kv rest ih =>
    have hstep : dictUpdate m (kv :: rest) = dictUpdate (dictSet m kv.1 kv.2) rest := rfl
    rw [hstep]
    calc (dictUpdate (dictSet m kv.1 kv.2) rest).length
        ≤ (dictSet m kv.1 kv.2).length + rest.length := ih _
      _ ≤ (m.length + 1) + rest.length := by
          have := length_dictSet_le m kv.1 kv.2; omega
      _ = m.length + (kv :: rest).length := by simp; omega

theorem lookup_dictUpdate_nodup {α : Type} (s : List (String × α)) (m : Dict α) (a : String)
    (hs : (s.map Prod.fst).Nodup) :
    alistLookup (dictUpdate m s) a = optOr (alistLookup s a) (alistLookup m a) := by
  induction s generalizing m with
  | nil => simp [dictUpdate, alistLookup, optOr]
  | cons kv rest ih =>
    obtain ⟨k, v⟩ := kv
    simp only [List.map_cons, List.nodup_cons] at hs
    have hstep : dictUpdate m ((k, v) :: rest) = dictUpdate (dictSet m k v) rest := rfl
    rw [hstep, ih (dictSet m k v) hs.2]
    by_cases h : k = a
    · subst h
      have hnone : alistLookup rest k = none := by
        rw [alistLookup_eq_none]
        exact hs.1
      simp [alistLookup, hnone, lookup_dictSet, optOr]
    · simp [alistLookup, h, lookup_dictSet]

/-! ### Span-trimmer scan lemmas -/

theorem firstScan_le (l : List Int) (i : Nat) (p : Int) :
    firstScan l i p ≤ i + l.length := by
  induction l generalizing i with
  | nil => simp [firstScan]
  | cons w rest ih =>
    by_cases h : w = p
    · simp only [firstScan, h, ne_eq, not_true_eq_false, if_false]
      have := ih (i + 1)
      simpa [Nat.add_comm, Nat.add_assoc, Nat.add_left_comm] using this.trans (by omega)
    · simp only [firstScan, ne_eq, h, not_false_eq_true, if_true]
      omega

theorem firstScan_const (l : List Int) (i : Nat) (p : Int) (h : ∀ x ∈ l, x = p) :
    firstScan l i p = i + l.length := by
  induction l generalizing i with
  | nil => simp [firstScan]
  | cons w rest ih =>
    have hw : w = p := h w (by simp)
    have hrest : ∀ x ∈ rest, x = p := fun x hx => h x (by simp [hx])
    simp only [firstScan, hw, ne_eq, not_true_eq_false, if_false]
    rw [ih (i + 1) hrest]
    simp; omega

theorem lastScan_const (l : List Int) (i : Nat) (p : Int) (h : ∀ x ∈ l, x = p) :
    lastScan l i p = i - l.length := by
  induction l generalizing i p with
  | nil => simp [lastScan]
  | cons w rest ih =>
    have hw : w = p := h w (by simp)
    have hrest : ∀ x ∈ rest, x = p := fun x hx => h x (by simp [hx])
    simp only [lastScan, hw, ne_eq, not_true_eq_false, if_false]
    rw [ih (i - 1) p hrest]
    simp; omega

theorem getLastD_all_eq (t : List Int) (h d : Int) (ht : ∀ x ∈ t, x = h) :
    (h :: t).getLastD d = h := by
  induction t generalizing h d with
  | nil => rfl
  | cons w rest ih =>
    have hw : w = h := ht w (by simp)
    have hrest : ∀ x ∈ rest, x = w := fun x hx => (ht x (by simp [hx])).trans hw.symm
    rw [List.getLastD_cons]
    calc (w :: rest).getLastD h = w := ih w h hrest
      _ = h := hw

/-! ### Snapshot-trace lemmas for the cohort selector -/

theorem optOr_none {α : Type} (a : Option α) : optOr a none = a := by
  cases a <;> rfl

theorem optOr_assoc {α : Type} (a b c : Option α) :
    optOr (optOr a b) c = optOr a (optOr b c) := by
  cases a <;> rfl

theorem getLast?_cons {α : Type} (l : List α) (b : α) :
    (b :: l).getLast? = optOr l.getLast? (some b) := by
  cases l with
  | nil => rfl
  | cons c rest =>
    rw [List.getLast?_cons_cons]
    have hsome : ((c :: rest).getLast?).isSome = true :=
      List.getLast?_isSome.mpr (by simp)
    obtain ⟨x, hx⟩ := Option.isSome_iff_exists.mp hsome
    rw [hx]
    rfl

theorem foldl_topStep_topUsers (maxRank : Nat) (rows : List Row) :
    ∀ st : TopState, (rows.foldl (topStep maxRank) st).topUsers =
      (snapTrace maxRank st.users st.prevDay rows).foldl dictUpdate st.topUsers := by
  induction rows with
  | nil => intro st; rfl
  | cons row rest ih =>
    intro st
    rw [List.foldl_cons, ih]
    by_cases h : some row.time.day ≠ st.prevDay
    · simp [topStep, snapTrace, h]
    · simp [topStep, snapTrace, h]

theorem get_top_users_eq_foldl (maxRank : Nat) (rows : List Row) :
    get_top_users maxRank rows = (topSnapshots maxRank rows).foldl dictUpdate [] := by
  unfold get_top_users topSnapshots
  exact foldl_topStep_topUsers maxRank rows ⟨[], none, []⟩

theorem snapshotPairs_keys (maxRank : Nat) (users : Dict Int) :
    (snapshotPairs maxRank users).map Prod.fst = snapshotKeys maxRank users := by
  simp [snapshotPairs, Function.comp_def]

theorem snapshotPairs_length_le (maxRank : Nat) (users : Dict Int) :
    (snapshotPairs maxRank users).length ≤ maxRank := by
  simp only [snapshotPairs, snapshotKeys, List.length_map, List.length_take]
  exact min_le_left _ _

theorem mem_keys_addCount (m : Dict Int) (k a : String) (v : Int) :
    a ∈ alistKeys (addCount m k v) ↔ a ∈ alistKeys m ∨ a = k := by
  induction m with
  | nil => simp [addCount, alistKeys]
  | cons kv rest ih =>
    obtain ⟨k0, c⟩ := kv
    by_cases h1 : k0 = k
    · subst h1
      by_cases h2 : a = k0 <;> simp [addCount, alistKeys, h2]
    · simp only [addCount, if_neg h1, alistKeys, List.map_cons, List.mem_cons]
      rw [← alistKeys, ih, ← alistKeys]
      tauto

theorem nodup_keys_addCount (m : Dict Int) (k : String) (v : Int)
    (hm : (alistKeys m).Nodup) : (alistKeys (addCount m k v)).Nodup := by
  induction m with
  | nil => simp [addCount, alistKeys]
  | cons kv rest ih =>
    obtain ⟨k0, c⟩ := kv
    simp only [alistKeys, List.map_cons, List.nodup_cons] at hm
    by_cases h1 : k0 = k
    · subst h1
      simpa [addCount, alistKeys, List.nodup_cons] using hm
    · have hrest := ih hm.2
      simp only [addCount, if_neg h1, alistKeys, List.map_cons, List.nodup_cons]
      refine ⟨fun hc => ?_, hrest⟩
      rcases (mem_keys_addCount rest k k0 v).mp hc with h | h
      · exact hm.1 h
      · exact h1 h

theorem nodup_keys_snapshotPairs (maxRank : Nat) (users : Dict Int)
    (h : (alistKeys users).Nodup) : ((snapshotPairs maxRank users).map Prod.fst).Nodup := by
  rw [snapshotPairs_keys]
  have hsorted : (sortedKeysByCount users).Nodup :=
    ((List.perm_insertionSort _ (alistKeys users)).symm).nodup h
  exact (List.take_sublist _ _).nodup hsorted

theorem snapTrace_nodup (maxRank : Nat) (rows : List Row) :
    ∀ (users : Dict Int) (pd : Option Nat), (alistKeys users).Nodup →
      ∀ s ∈ snapTrace maxRank users pd rows, (s.map Prod.fst).Nodup := by
  induction rows with
  | nil => intro users pd _ s hs; simp [snapTrace] at hs
  | cons row rest ih =>
    intro users pd hu s hs
    have hu2 : (alistKeys (addCount users row.username row.waffles)).Nodup :=
      nodup_keys_addCount _ _ _ hu
    by_cases h : some row.time.day ≠ pd
    · rw [snapTrace, if_pos h] at hs
      rcases List.mem_cons.mp hs with rfl | hs
      · exact nodup_keys_snapshotPairs _ _ hu2
      · exact ih _ _ hu2 s hs
    · rw [snapTrace, if_neg h] at hs
      exact ih _ _ hu2 s hs

theorem lookup_foldl_dictUpdate_isSome (snaps : List (List (String × Int))) :
    ∀ (m : Dict Int) (a : String),
      (alistLookup (snaps.foldl dictUpdate m) a).isSome = true ↔
        (alistLookup m a).isSome = true ∨ ∃ s ∈ snaps, a ∈ s.map Prod.fst := by
  induction snaps with
  | nil => simp
  | cons s rest ih =>
    intro m a
    rw [List.foldl_cons, ih, lookup_dictUpdate_isSome]
    rw [List.exists_mem_cons_iff]
    tauto

theorem lookup_foldl_dictUpdate_getLast (snaps : List (List (String × Int)))
    (hs : ∀ s ∈ snaps, (s.map Prod.fst).Nodup) :
    ∀ (m : Dict Int) (a : String),
      alistLookup (snaps.foldl dictUpdate m) a =
        optOr ((snaps.filterMap (fun s => alistLookup s a)).getLast?) (alistLookup m a) := by
  induction snaps with
  | nil => intro m a; rfl
  | cons s rest ih =>
    intro m a
    have hrest : ∀ t ∈ rest, (t.map Prod.fst).Nodup := fun t ht => hs t (by simp [ht])
    rw [List.foldl_cons, ih hrest, lookup_dictUpdate_nodup s m a (hs s (by simp))]
    cases hsa : alistLookup s a with
    | none =>
      have h1 : List.filterMap (fun t => alistLookup t a) (s :: rest) =
          List.filterMap (fun t => alistLookup t a) rest :=
        List.filterMap_cons_none hsa
      rw [h1]
      rfl
    | some v =>
      have h1 : List.filterMap (fun t => alistLookup t a) (s :: rest) =
          v :: List.filterMap (fun t => alistLookup t a) rest :=
        List.filterMap_cons_some hsa
      rw [h1, getLast?_cons, optOr_assoc]

/-! ### Claim C1: span bounds -/

/-- C1 counterexample: on the constant history `[4, 4, 4]` the span
trimmer returns `(first, last) = (2, 1)`, so the claimed invariant
`0 <= first <= last <= len(history)` is false (`first > last`). -/
theorem span_invariant_counterexample :
    ¬ (0 ≤ (spanOf [4, 4, 4]).1 ∧ (spanOf [4, 4, 4]).1 ≤ (spanOf [4, 4, 4]).2 ∧
        (spanOf [4, 4, 4]).2 ≤ ([4, 4, 4] : List Int).length) := by
  decide

/-- C1 (amended): for every non-empty history the span trimmer returns
indices with `0 <= first <= len(history)` and `last <= len(history)`;
the middle inequality `first <= last` of the claim does not hold in
general. -/
theorem span_bounds (history : List Int) (hne : history ≠ []) :
    0 ≤ (spanOf history).1 ∧ (spanOf history).1 ≤ history.length ∧
      (spanOf history).2 ≤ history.length := by
  obtain ⟨h, t, rfl⟩ := List.exists_cons_of_ne_nil hne
  refine ⟨Nat.zero_le _, ?_, ?_⟩
  · have h1 := firstScan_le (h :: t) 0 h
    simp only [spanOf]
    simp only [Nat.zero_add] at h1
    exact Nat.max_le.mpr ⟨by omega, Nat.zero_le _⟩
  · simp only [spanOf]
    exact Nat.min_le_right _ _

/-- C1 witness: the amended bounds evaluated at the history `[1, 2]`. -/
theorem span_bounds_witness :
    ([1, 2] : List Int) ≠ [] ∧
      (0 ≤ (spanOf [1, 2]).1 ∧ (spanOf [1, 2]).1 ≤ ([1, 2] : List Int).length ∧
        (spanOf [1, 2]).2 ≤ ([1, 2] : List Int).length) :=
  ⟨by decide, span_bounds [1, 2] (by decide)⟩

/-! ### Claim C3: constant histories -/

/-- C3 counterexample: the constant history `[4, 4, 4]` does not get the
span `(0, 3)` the claim predicts; the code returns `(2, 1)`. -/
theorem constant_span_counterexample : spanOf [4, 4, 4] ≠ (0, 3) := by decide

/-- C3 (amended): a constant non-empty history of length `n` gets span
`(n - 1, 1)` from the trimmer (the forward scan runs off the end, the
backward scan runs down to index 0), not `(0, n)`. -/
theorem constant_history_span (h : Int) (t : List Int) (ht : ∀ x ∈ t, x = h) :
    spanOf (h :: t) = (t.length, 1) := by
  have hall : ∀ x ∈ h :: t, x = h := by
    intro x hx
    rcases List.mem_cons.mp hx with rfl | hx
    · rfl
    · exact ht x hx
  have hrev : ∀ x ∈ (h :: t).reverse, x = h :=
    fun x hx => hall x (List.mem_reverse.mp hx)
  simp only [spanOf]
  rw [getLastD_all_eq t h h ht, lastScan_const _ _ _ hrev, firstScan_const _ _ _ hall]
  rw [Prod.mk.injEq]
  constructor
  · simp only [List.length_cons]
    omega
  · simp only [List.length_reverse, List.length_cons]
    omega

/-- C3 witness: the amended statement evaluated at `[4, 4, 4]`, giving
span `(2, 1)`. -/
theorem constant_history_span_witness :
    (∀ x ∈ ([4, 4] : List Int), x = 4) ∧
      spanOf (4 :: [4, 4]) = (([4, 4] : List Int).length, 1) :=
  ⟨by decide, constant_history_span 4 [4, 4] (by decide)⟩

/-! ### Claim C9: empty input -/

/-- C9: on the empty event sequence the cohort selector returns an empty
cohort and the series builder returns an empty day-boundary list and an
empty history mapping; both are total functions, so no error is raised. -/
theorem empty_input_empty_outputs (maxRank : Nat) :
    get_top_users maxRank [] = [] ∧ parse_waffle_rows maxRank [] = ([], []) :=
  ⟨rfl, rfl⟩

/-! ### Claim C2: scenario 1 -/

/-- C2 counterexample: for scenario 1's two events the span for actor A
is `(0, 1)`, not the claimed `(0, 2)`: the `last_waffle` dict maps A to
1. -/
theorem scenario1_span_counterexample :
    get_limiting_waffles (parse_waffle_rows 10 [c2row1 ts1, c2row2 ts2]).2 ≠
      ([("A", 0)], [("A", 2)]) := by
  decide

/-- C2 (amended): for events `[(A,5,day1), (A,3,day2)]` on two distinct
day-of-month values with `maxRank = 10`, the pipeline produces cohort
`{A: 8}`, day-boundary list `[t1, t2]` (length 2), history `A = [5, 8]`
and span `(first, last) = (0, 1)` — not `(0, 2)` as claimed. -/
theorem scenario1_pipeline (t1 t2 : Timestamp) (hd : t1.day ≠ t2.day) :
    get_top_users 10 [c2row1 t1, c2row2 t2] = [("A", 8)] ∧
      parse_waffle_rows 10 [c2row1 t1, c2row2 t2] = ([t1, t2], [("A", [5, 8])]) ∧
      get_limiting_waffles [("A", [5, 8])] = ([("A", 0)], [("A", 1)]) := by
  have hne : some t2.day ≠ some t1.day := by simpa using Ne.symm hd
  have htop : get_top_users 10 [c2row1 t1, c2row2 t2] = [("A", 8)] := by
    simp [get_top_users, topStep, c2row1, c2row2, hne, addCount, dictUpdate, dictSet,
      snapshotPairs, snapshotKeys, sortedKeysByCount, alistKeys, countOf, alistLookup,
      List.insertionSort, List.orderedInsert]
  refine ⟨htop, ?_, by decide⟩
  simp only [parse_waffle_rows, htop]
  simp [parseStep, c2row1, c2row2, hne, bumpCount, appendAll, appendHist, alistHasKey,
    alistLookup]

/-- C2 witness: the amended scenario evaluated at the concrete
timestamps `ts1` (day 1) and `ts2` (day 2). -/
theorem scenario1_pipeline_witness :
    ts1.day ≠ ts2.day ∧
      (get_top_users 10 [c2row1 ts1, c2row2 ts2] = [("A", 8)] ∧
        parse_waffle_rows 10 [c2row1 ts1, c2row2 ts2] = ([ts1, ts2], [("A", [5, 8])]) ∧
        get_limiting_waffles [("A", [5, 8])] = ([("A", 0)], [("A", 1)])) :=
  ⟨by decide, scenario1_pipeline ts1 ts2 (by decide)⟩

/-! ### Claim C4: cohort size -/

/-- C4 counterexample: with `maxRank = 1` and two actors on two distinct
days (A eats 5 on day 1, B eats 10 on day 2), the stream has 2 distinct
actors — not fewer than `maxRank` — yet the cohort has 2 > 1 members:
A tops the day-1 snapshot, B the day-2 snapshot, and both stay. -/
theorem cohort_size_counterexample :
    (c4rows.map Row.username).Nodup ∧ (c4rows.map Row.username).length = 2 ∧
      ¬ ((get_top_users 1 c4rows).length ≤ 1) := by
  refine ⟨by decide, by decide, by decide⟩

/-- C4 (amended): each day-boundary snapshot merges at most `maxRank`
actors into the cohort, so the cohort holds at most `maxRank` times the
number of snapshots; a bound of `maxRank` overall does not hold even when
at least `maxRank` distinct actors exist. -/
theorem cohort_size_bound (maxRank : Nat) (rows : List Row) :
    (get_top_users maxRank rows).length ≤
      maxRank * (topSnapshots maxRank rows).length := by
  rw [get_top_users_eq_foldl]
  have hlen : ∀ s ∈ topSnapshots maxRank rows, s.length ≤ maxRank := by
    have haux : ∀ (rs : List Row) (users : Dict Int) (pd : Option Nat),
        ∀ s ∈ snapTrace maxRank users pd rs, s.length ≤ maxRank := by
      intro rs
      induction rs with
      | nil => intro users pd s hs; simp [snapTrace] at hs
      | cons row rest ih =>
        intro users pd s hs
        by_cases h : some row.time.day ≠ pd
        · rw [snapTrace, if_pos h] at hs
          rcases List.mem_cons.mp hs with rfl | hs
          · exact snapshotPairs_length_le _ _
          · exact ih _ _ s hs
        · rw [snapTrace, if_neg h] at hs
          exact ih _ _ s hs
    exact haux rows [] none
  have hfold : ∀ (snaps : List (List (String × Int))),
      (∀ s ∈ snaps, s.length ≤ maxRank) → ∀ m : Dict Int,
        (snaps.foldl dictUpdate m).length ≤ m.length + maxRank * snaps.length := by
    intro snaps
    induction snaps with
    | nil => intro _ m; simp
    | cons s rest ih =>
      intro hsn m
      rw [List.foldl_cons]
      have h1 := ih (fun t ht => hsn t (by simp [ht])) (dictUpdate m s)
      have h2 := length_dictUpdate_le s m
      have h3 := hsn s (by simp)
      simp only [List.length_cons]
      calc (List.foldl dictUpdate (dictUpdate m s) rest).length
          ≤ (dictUpdate m s).length + maxRank * rest.length := h1
        _ ≤ (m.length + s.length) + maxRank * rest.length := by omega
        _ ≤ m.length + maxRank * (rest.length + 1) := by
            have : maxRank * (rest.length + 1) = maxRank * rest.length + maxRank :=
              Nat.mul_succ maxRank rest.length
            omega
  simpa using hfold (topSnapshots maxRank rows) hlen []

/-! ### Claim C5: cohort membership is the union over snapshots -/

/-- C5: an actor is in the final cohort exactly when some day-boundary
snapshot ranked it among the top `maxRank` by running total at that
point; in particular membership, once gained, is never revoked by later
snapshots. -/
theorem cohort_eq_union_snapshots (maxRank : Nat) (rows : List Row) (a : String) :
    alistHasKey (get_top_users maxRank rows) a = true ↔
      ∃ s ∈ topSnapshots maxRank rows, a ∈ s.map Prod.fst := by
  rw [alistHasKey, get_top_users_eq_foldl, lookup_foldl_dictUpdate_isSome]
  simp [alistLookup]

/-! ### Claim C10: the stored quantity is the latest snapshot's total -/

/-- C10: the quantity stored for an actor in the cohort is its running
total as of the latest day-boundary snapshot whose top-`maxRank` list
contains it (`none` when no snapshot ever did); snapshots that exclude
the actor write nothing, so the stored value can lag the final total. -/
theorem cohort_value_latest_snapshot (maxRank : Nat) (rows : List Row) (a : String) :
    alistLookup (get_top_users maxRank rows) a =
      ((topSnapshots maxRank rows).filterMap (fun s => alistLookup s a)).getLast? := by
  rw [get_top_users_eq_foldl]
  rw [lookup_foldl_dictUpdate_getLast (topSnapshots maxRank rows)
    (snapTrace_nodup maxRank rows [] none (by simp [alistKeys]))]
  rw [show alistLookup ([] : Dict Int) a = none from rfl, optOr_none]

/-! ### Series-builder lemmas -/

theorem keys_bumpCount (m : Dict Int) (key : String) (v : Int) :
    alistKeys (bumpCount m key v) = alistKeys m := by
  induction m with
  | nil => rfl
  | cons kv rest ih =>
    obtain ⟨k0, c⟩ := kv
    by_cases h : k0 = key <;> simp [bumpCount, alistKeys, h] <;>
      simpa [alistKeys] using ih

theorem lookup_bumpCount (m : Dict Int) (key a : String) (v : Int) :
    alistLookup (bumpCount m key v) a =
      if a = key then (alistLookup m a).map (· + v) else alistLookup m a := by
  induction m with
  | nil => by_cases h : a = key <;> simp [bumpCount, alistLookup, h]
  | cons kv rest ih =>
    obtain ⟨k0, c⟩ := kv
    by_cases h1 : k0 = key
    · subst h1
      by_cases h2 : k0 = a
      · subst h2
        simp [bumpCount, alistLookup]
      · have h3 : ¬ a = k0 := fun hc => h2 hc.symm
        simp [bumpCount, alistLookup, h2, h3]
    · by_cases h2 : k0 = a
      · subst h2
        have h3 : ¬ k0 = key := h1
        simp [bumpCount, alistLookup, h1, h3, alistKeys]
      · simp [bumpCount, alistLookup, h1, h2, ih]

theorem countOf_le_bumpCount (m : Dict Int) (key a : String) (v : Int) (hv : 0 ≤ v) :
    countOf m a ≤ countOf (bumpCount m key v) a := by
  rw [countOf, countOf, lookup_bumpCount]
  by_cases h : a = key
  · cases hm : alistLookup m a <;> simp [h, hm] <;> omega
  · simp [h]

theorem lookup_appendHist (m : Dict (List Int)) (key a : String) (v : Int) :
    alistLookup (appendHist m key v) a =
      if key = a then some ((alistLookup m a).getD [] ++ [v]) else alistLookup m a := by
  induction m with
  | nil => by_cases h : key = a <;> simp [appendHist, alistLookup, h]
  | cons kv rest ih =>
    obtain ⟨k0, c⟩ := kv
    by_cases h1 : k0 = key
    · subst h1
      by_cases h2 : k0 = a <;> simp [appendHist, alistLookup, h2]
    · by_cases h2 : k0 = a
      · subst h2
        have h3 : ¬ key = k0 := fun hc => h1 hc.symm
        simp [appendHist, alistLookup, h1, h3]
      · simp [appendHist, alistLookup, h1, h2, ih]

theorem mem_keys_appendHist (m : Dict (List Int)) (key a : String) (v : Int) :
    a ∈ alistKeys (appendHist m key v) ↔ a ∈ alistKeys m ∨ a = key := by
  rw [← alistLookup_isSome, lookup_appendHist]
  by_cases h : key = a
  · subst h; simp
  · have hak : ¬ a = key := fun hc => h hc.symm
    simp [h, hak, alistLookup_isSome]

theorem mem_keys_appendAll (counts : Dict Int) (hist : Dict (List Int)) (a : String) :
    a ∈ alistKeys (appendAll counts hist) ↔ a ∈ alistKeys hist ∨ a ∈ alistKeys counts := by
  induction counts generalizing hist with
  | nil => simp [appendAll, alistKeys]
  | cons kv rest ih =>
    obtain ⟨k0, c⟩ := kv
    have hstep : appendAll ((k0, c) :: rest) hist = appendAll rest (appendHist hist k0 c) := rfl
    rw [hstep, ih, mem_keys_appendHist]
    simp [alistKeys]
    tauto

theorem lookup_appendAll_not_mem (counts : Dict Int) (hist : Dict (List Int)) (a : String)
    (ha : a ∉ alistKeys counts) :
    alistLookup (appendAll counts hist) a = alistLookup hist a := by
  induction counts generalizing hist with
  | nil => rfl
  | cons kv rest ih =>
    obtain ⟨k0, c⟩ := kv
    simp only [alistKeys, List.map_cons, List.mem_cons] at ha
    push_neg at ha
    have hstep : appendAll ((k0, c) :: rest) hist = appendAll rest (appendHist hist k0 c) := rfl
    rw [hstep, ih _ (by simpa [alistKeys] using ha.2), lookup_appendHist]
    rw [if_neg (fun hc => ha.1 hc.symm)]

theorem lookup_appendAll_mem (counts : Dict Int) (hist : Dict (List Int)) (a : String)
    (hnd : (alistKeys counts).Nodup) (ha : a ∈ alistKeys counts) :
    alistLookup (appendAll counts hist) a =
      some ((alistLookup hist a).getD [] ++ [countOf counts a]) := by
  induction counts generalizing hist with
  | nil => simp [alistKeys] at ha
  | cons kv rest ih =>
    obtain ⟨k0, c⟩ := kv
    simp only [alistKeys, List.map_cons, List.nodup_cons] at hnd
    have hstep : appendAll ((k0, c) :: rest) hist = appendAll rest (appendHist hist k0 c) := rfl
    rw [hstep]
    by_cases h : a = k0
    · subst h
      rw [lookup_appendAll_not_mem rest _ a hnd.1, lookup_appendHist, if_pos rfl]
      simp [countOf, alistLookup]
    · have h4 : ¬ k0 = a := fun hc => h hc.symm
      have ha2 : a ∈ alistKeys rest := by
        have hcons : alistKeys ((k0, c) :: rest) = k0 :: alistKeys rest := rfl
        rw [hcons] at ha
        rcases List.mem_cons.mp ha with h5 | h5
        · exact absurd h5 h
        · exact h5
      rw [ih _ hnd.2 ha2, lookup_appendHist, if_neg h4]
      have hco : countOf ((k0, c) :: rest) a = countOf rest a := by
        simp [countOf, alistLookup, h4]
      rw [hco]

theorem parseStep_userCounts (st : ParseState) (row : Row) :
    (parseStep st row).userCounts = bumpCount st.userCounts row.username row.waffles := by
  by_cases h : some row.time.day ≠ st.prevDay <;> simp [parseStep, h]

theorem parseStep_prevDay (st : ParseState) (row : Row) :
    (parseStep st row).prevDay = some row.time.day := by
  by_cases h : some row.time.day ≠ st.prevDay <;> simp [parseStep, h]

theorem foldl_parseStep_times (rows : List Row) :
    ∀ st : ParseState, (rows.foldl parseStep st).times = st.times ++ timeTrace st.prevDay rows := by
  induction rows with
  | nil => intro st; simp [timeTrace]
  | cons row rest ih =>
    intro st
    rw [List.foldl_cons, ih]
    by_cases h : some row.time.day ≠ st.prevDay
    · simp [parseStep, timeTrace, h, parseStep_prevDay]
    · simp [parseStep, timeTrace, h, parseStep_prevDay]

theorem countTrace_length (u : String) (rows : List Row) :
    ∀ (counts : Dict Int) (pd : Option Nat),
      (countTrace u counts pd rows).length = (timeTrace pd rows).length := by
  induction rows with
  | nil => intro counts pd; rfl
  | cons row rest ih =>
    intro counts pd
    by_cases h : some row.time.day ≠ pd
    · simp [countTrace, timeTrace, h, ih]
    · simp [countTrace, timeTrace, h, ih]

theorem foldl_parseStep_hist_mem (rows : List Row) :
    ∀ (st : ParseState) (a : String),
      a ∈ alistKeys ((rows.foldl parseStep st).histories) →
        a ∈ alistKeys st.histories ∨ a ∈ alistKeys st.userCounts := by
  induction rows with
  | nil => intro st a ha; exact Or.inl ha
  | cons row rest ih =>
    intro st a ha
    rcases ih (parseStep st row) a ha with h1 | h1
    · by_cases h : some row.time.day ≠ st.prevDay
      · rw [show (parseStep st row).histories =
            appendAll (bumpCount st.userCounts row.username row.waffles) st.histories by
              simp [parseStep, h]] at h1
        rcases (mem_keys_appendAll _ _ _).mp h1 with h2 | h2
        · exact Or.inl h2
        · rw [keys_bumpCount] at h2
          exact Or.inr h2
      · rw [show (parseStep st row).histories = st.histories by simp [parseStep, h]] at h1
        exact Or.inl h1
    · rw [parseStep_userCounts, keys_bumpCount] at h1
      exact Or.inr h1

theorem foldl_parseStep_histOf (rows : List Row) :
    ∀ (st : ParseState) (u : String), (alistKeys st.userCounts).Nodup →
      u ∈ alistKeys st.userCounts →
        (alistLookup ((rows.foldl parseStep st).histories) u).getD [] =
          (alistLookup st.histories u).getD [] ++
            countTrace u st.userCounts st.prevDay rows := by
  induction rows with
  | nil => intro st u _ _; simp [countTrace]
  | cons row rest ih =>
    intro st u hnd hu
    rw [List.foldl_cons]
    have hnd2 : (alistKeys (parseStep st row).userCounts).Nodup := by
      rw [parseStep_userCounts, keys_bumpCount]; exact hnd
    have hu2 : u ∈ alistKeys (parseStep st row).userCounts := by
      rw [parseStep_userCounts, keys_bumpCount]; exact hu
    rw [ih (parseStep st row) u hnd2 hu2, parseStep_userCounts, parseStep_prevDay]
    by_cases h : some row.time.day ≠ st.prevDay
    · have hhist : (parseStep st row).histories =
          appendAll (bumpCount st.userCounts row.username row.waffles) st.histories := by
        simp [parseStep, h]
      have hum : u ∈ alistKeys (bumpCount st.userCounts row.username row.waffles) := by
        rw [keys_bumpCount]; exact hu
      have hund : (alistKeys (bumpCount st.userCounts row.username row.waffles)).Nodup := by
        rw [keys_bumpCount]; exact hnd
      rw [hhist, lookup_appendAll_mem _ _ _ hund hum]
      rw [countTrace, if_pos h]
      simp [countOf]
    · have hhist : (parseStep st row).histories = st.histories := by simp [parseStep, h]
      rw [hhist, countTrace, if_neg h]

theorem countTrace_chain (u : String) (rows : List Row) :
    ∀ (counts : Dict Int) (pd : Option Nat), (∀ r ∈ rows, 0 ≤ r.waffles) →
      List.Chain' (· ≤ ·) (countTrace u counts pd rows) ∧
        (∀ y ∈ (countTrace u counts pd rows).head?, countOf counts u ≤ y) := by
  induction rows with
  | nil => intro counts pd _; simp [countTrace]
  | cons row rest ih =>
    intro counts pd hq
    have hrow : 0 ≤ row.waffles := hq row (by simp)
    have hrest : ∀ r ∈ rest, 0 ≤ r.waffles := fun r hr => hq r (by simp [hr])
    have hmono : countOf counts u ≤
        countOf (bumpCount counts row.username row.waffles) u :=
      countOf_le_bumpCount _ _ _ _ hrow
    obtain ⟨hchain, hhead⟩ := ih (bumpCount counts row.username row.waffles)
      (some row.time.day) hrest
    by_cases h : some row.time.day ≠ pd
    · rw [countTrace, if_pos h]
      refine ⟨?_, ?_⟩
      · rw [List.chain'_cons']
        exact ⟨hhead, hchain⟩
      · intro y hy
        simp only [List.head?_cons, Option.mem_def, Option.some.injEq] at hy
        omega
    · rw [countTrace, if_neg h]
      exact ⟨hchain, fun y hy => le_trans hmono (hhead y hy)⟩

theorem chain_le_getD :
    ∀ (l : List Int), List.Chain' (· ≤ ·) l →
      ∀ i : Nat, i + 1 < l.length → l.getD i 0 ≤ l.getD (i + 1) 0
  | [], _, i, hi => by simp at hi
  | [a], _, i, hi => by simp at hi
  | a :: b :: t, hl, 0, _ => by
    simpa using (List.chain'_cons.mp hl).1
  | a :: b :: t, hl, i + 1, hi => by
    have := chain_le_getD (b :: t) (List.chain'_cons.mp hl).2 i (by simpa using hi)
    simpa using this

theorem nodup_keys_foldl_dictUpdate (snaps : List (List (String × Int))) :
    ∀ m : Dict Int, (alistKeys m).Nodup →
      (alistKeys (snaps.foldl dictUpdate m)).Nodup := by
  induction snaps with
  | nil => intro m hm; exact hm
  | cons s rest ih =>
    intro m hm
    exact ih (dictUpdate m s) (nodup_keys_dictUpdate s m hm)

theorem nodup_keys_get_top_users (maxRank : Nat) (rows : List Row) :
    (alistKeys (get_top_users maxRank rows)).Nodup := by
  rw [get_top_users_eq_foldl]
  exact nodup_keys_foldl_dictUpdate _ [] (by simp [alistKeys])

/-- The histories returned by `parse_waffle_rows` are exactly the
per-boundary running-total traces of the filtered stream. -/
theorem parse_histories_char (maxRank : Nat) (rows : List Row) (u : String) (h : List Int)
    (hu : alistLookup (parse_waffle_rows maxRank rows).2 u = some h) :
    h = countTrace u ((get_top_users maxRank rows).map (fun kv => (kv.1, 0))) none
          (rows.filter (fun row => alistHasKey (get_top_users maxRank rows) row.username)) := by
  set tu : Dict Int := get_top_users maxRank rows with htu
  set c0 : Dict Int := tu.map (fun kv => (kv.1, 0)) with hc0
  set fr : List Row := rows.filter (fun row => alistHasKey tu row.username) with hfr
  have hist_eq : (parse_waffle_rows maxRank rows).2 =
      (fr.foldl parseStep ⟨c0, [], [], none⟩).histories := rfl
  rw [hist_eq] at hu
  have hkeys : alistKeys c0 = alistKeys tu := by
    rw [hc0]
    simp [alistKeys, Function.comp_def]
  have hnd : (alistKeys c0).Nodup := by
    rw [hkeys, htu]
    exact nodup_keys_get_top_users maxRank rows
  have humem : u ∈ alistKeys ((fr.foldl parseStep ⟨c0, [], [], none⟩).histories) := by
    apply (alistLookup_isSome _ u).mp
    rw [hu]
    rfl
  have hum : u ∈ alistKeys c0 := by
    rcases foldl_parseStep_hist_mem fr ⟨c0, [], [], none⟩ u humem with h1 | h1
    · simp [alistKeys] at h1
    · exact h1
  have hchar := foldl_parseStep_histOf fr ⟨c0, [], [], none⟩ u hnd hum
  rw [hu] at hchar
  simpa [alistLookup] using hchar

/-- The day-boundary list returned by `parse_waffle_rows` is the
boundary-timestamp trace of the filtered stream. -/
theorem parse_times_char (maxRank : Nat) (rows : List Row) :
    (parse_waffle_rows maxRank rows).1 =
      timeTrace none
        (rows.filter (fun row => alistHasKey (get_top_users maxRank rows) row.username)) := by
  have times_eq : (parse_waffle_rows maxRank rows).1 =
      ((rows.filter (fun row => alistHasKey (get_top_users maxRank rows) row.username)).foldl
        parseStep
        ⟨(get_top_users maxRank rows).map (fun kv => (kv.1, 0)), [], [], none⟩).times := rfl
  rw [times_eq, foldl_parseStep_times]
  simp

/-! ### Claim C7: history lengths match the day-boundary count -/

/-- C7: every history in the mapping produced by the series builder has
the same length, namely the length of the day-boundary timestamp list:
each boundary appends one timestamp and one value to every cohort
member's history. -/
theorem history_length_eq_boundaries (maxRank : Nat) (rows : List Row) (u : String)
    (h : List Int) (hu : alistLookup (parse_waffle_rows maxRank rows).2 u = some h) :
    h.length = (parse_waffle_rows maxRank rows).1.length := by
  rw [parse_histories_char maxRank rows u h hu, parse_times_char maxRank rows]
  exact countTrace_length u _ _ _

/-- C7 witness: actor A's history in scenario 1 has length 2, the number
of day boundaries. -/
theorem history_length_eq_boundaries_witness :
    alistLookup (parse_waffle_rows 10 [c2row1 ts1, c2row2 ts2]).2 "A" = some [5, 8] ∧
      ([5, 8] : List Int).length = (parse_waffle_rows 10 [c2row1 ts1, c2row2 ts2]).1.length :=
  ⟨by decide, history_length_eq_boundaries 10 [c2row1 ts1, c2row2 ts2] "A" [5, 8] (by decide)⟩

/-! ### Claim C6: histories are non-decreasing -/

/-- C6: when every event quantity is non-negative, every history the
series builder produces is non-decreasing, because each history entry is
a later value of a running total that only ever grows. -/
theorem history_nonDecreasing (maxRank : Nat) (rows : List Row)
    (hq : ∀ r ∈ rows, 0 ≤ r.waffles) (u : String) (h : List Int)
    (hu : alistLookup (parse_waffle_rows maxRank rows).2 u = some h) :
    ∀ i : Nat, i + 1 < h.length → h.getD i 0 ≤ h.getD (i + 1) 0 := by
  have hchar := parse_histories_char maxRank rows u h hu
  have hqf : ∀ r ∈ rows.filter
      (fun row => alistHasKey (get_top_users maxRank rows) row.username), 0 ≤ r.waffles :=
    fun r hr => hq r (List.mem_of_mem_filter hr)
  have hchain := (countTrace_chain u
    (rows.filter (fun row => alistHasKey (get_top_users maxRank rows) row.username))
    ((get_top_users maxRank rows).map (fun kv => (kv.1, 0))) none hqf).1
  rw [← hchar] at hchain
  exact chain_le_getD h hchain

/-- C6 witness: scenario 1's history `[5, 8]` for actor A is
non-decreasing at index 0. -/
theorem history_nonDecreasing_witness :
    (∀ r ∈ [c2row1 ts1, c2row2 ts2], 0 ≤ r.waffles) ∧
      alistLookup (parse_waffle_rows 10 [c2row1 ts1, c2row2 ts2]).2 "A" = some [5, 8] ∧
      ([5, 8] : List Int).getD 0 0 ≤ ([5, 8] : List Int).getD 1 0 :=
  ⟨by decide, by decide,
    history_nonDecreasing 10 [c2row1 ts1, c2row2 ts2] (by decide) "A" [5, 8] (by decide)
      0 (by decide)⟩

/-! ### Claim C8: day-of-month wraparound is a crossing -/

theorem topStep_snapshot_of_ne (maxRank : Nat) (st : TopState) (row : Row)
    (h : some row.time.day ≠ st.prevDay) :
    (topStep maxRank st row).topUsers =
      dictUpdate st.topUsers
        (snapshotPairs maxRank (addCount st.users row.username row.waffles)) := by
  simp [topStep, h]

theorem parseStep_times_of_ne (st : ParseState) (row : Row)
    (h : some row.time.day ≠ st.prevDay) :
    (parseStep st row).times = st.times ++ [row.time] := by
  simp [parseStep, h]

/-- C8: after an event on day-of-month 31, an event on day-of-month 1 is
detected as a day-boundary crossing by both loops, since the comparison
is `consumption_time.day != prev_day` on bare day numbers and 1 differs
from 31: the cohort selector takes a snapshot and the series builder
appends a day boundary. -/
theorem dayOfMonth_wraparound_crossing (maxRank : Nat) (st : TopState) (pst : ParseState)
    (row1 row2 : Row) (h31 : row1.time.day = 31) (h1 : row2.time.day = 1) :
    (topStep maxRank (topStep maxRank st row1) row2).topUsers =
      dictUpdate (topStep maxRank st row1).topUsers
        (snapshotPairs maxRank
          (addCount (topStep maxRank st row1).users row2.username row2.waffles)) ∧
    (parseStep (parseStep pst row1) row2).times =
      (parseStep pst row1).times ++ [row2.time] := by
  have hprev : (topStep maxRank st row1).prevDay = some row1.time.day := rfl
  have hne1 : some row2.time.day ≠ (topStep maxRank st row1).prevDay := by
    rw [hprev, h1, h31]
    simp
  have hne2 : some row2.time.day ≠ (parseStep pst row1).prevDay := by
    rw [parseStep_prevDay, h1, h31]
    simp
  exact ⟨topStep_snapshot_of_ne maxRank _ row2 hne1, parseStep_times_of_ne _ row2 hne2⟩

/-- C8 witness: the wraparound scenario evaluated on a concrete
January 31 / February 1 pair of events. -/
theorem dayOfMonth_wraparound_crossing_witness :
    c8row1.time.day = 31 ∧ c8row2.time.day = 1 ∧
      ((topStep 10 (topStep 10 c8top c8row1) c8row2).topUsers =
          dictUpdate (topStep 10 c8top c8row1).topUsers
            (snapshotPairs 10
              (addCount (topStep 10 c8top c8row1).users c8row2.username c8row2.waffles)) ∧
        (parseStep (parseStep c8parse c8row1) c8row2).times =
          (parseStep c8parse c8row1).times ++ [c8row2.time]) :=
  ⟨rfl, rfl, dayOfMonth_wraparound_crossing 10 c8top c8parse c8row1 c8row2 rfl rfl⟩
